import Mathlib

/-!
Verification of the consensus-polishing core (Mutation algebra, Polish driver,
BestMutations selection, quality-value conversion, chemistry comparer).

Strings are embedded as `List Char`, `size_t` as `Nat`, `double` scores as `ℚ`
(an ordered field stand-in; only order and addition of scores matter to the
control flow verified here), and the probability-to-QV conversion as a function
on `ℝ`.  Fallible operations return `Except`/`Option`.
-/

set_option maxHeartbeats 1000000

namespace Unanimity

/-- MutationType enum of the source (DELETION, INSERTION, SUBSTITUTION). -/
inductive MutationType where
  | deletion
  | insertion
  | substitution
deriving DecidableEq, Repr, Inhabited

/-- Mutation record: fields `bases_`, `type_`, `start_`, `length_` as in the
source class.  The smart constructors below are the only ways the verified
code builds one, mirroring the private C++ constructors. -/
structure Mutation where
  bases_ : List Char
  type_ : MutationType
  start_ : Nat
  length_ : Nat
deriving DecidableEq, Repr, Inhabited

/-- Mutation::Deletion(start, length): no bases, length as given. -/
def Mutation.Deletion (start length : Nat) : Mutation :=
  ⟨[], MutationType.deletion, start, length⟩

/-- Mutation::Insertion(start, bases): length field is 0. -/
def Mutation.Insertion (start : Nat) (bases : List Char) : Mutation :=
  ⟨bases, MutationType.insertion, start, 0⟩

/-- Mutation::Substitution(start, bases): length field is bases.length(). -/
def Mutation.Substitution (start : Nat) (bases : List Char) : Mutation :=
  ⟨bases, MutationType.substitution, start, bases.length⟩

def Mutation.Start (m : Mutation) : Nat := m.start_

def Mutation.Length (m : Mutation) : Nat := m.length_

/-- End() = start + length (so insertions have End == Start). -/
def Mutation.End (m : Mutation) : Nat := m.start_ + m.length_

def Mutation.Bases (m : Mutation) : List Char := m.bases_

def Mutation.IsDeletion (m : Mutation) : Bool := m.type_ = MutationType.deletion

def Mutation.IsInsertion (m : Mutation) : Bool := m.type_ = MutationType.insertion

def Mutation.IsSubstitution (m : Mutation) : Bool := m.type_ = MutationType.substitution

/-- Numeric flag used in Translate's window test: `End() + IsInsertion()`. -/
def Mutation.insFlag (m : Mutation) : Nat := if m.IsInsertion then 1 else 0

/-- LengthDiff(): +bases.len() for insertion, -length for deletion, 0 for
substitution. -/
def Mutation.LengthDiff (m : Mutation) : Int :=
  match m.type_ with
  | MutationType.insertion => (m.bases_.length : Int)
  | MutationType.deletion => -(m.length_ : Int)
  | MutationType.substitution => 0

/-- Structural well-formedness enforced by the C++ constructors and asserts:
nonempty bases for insertion/substitution (with the length field 0 resp.
bases.length) and a positive length with no bases for a deletion. -/
def Mutation.WellFormed (m : Mutation) : Prop :=
  match m.type_ with
  | MutationType.deletion => m.bases_ = [] ∧ 1 ≤ m.length_
  | MutationType.insertion => m.bases_ ≠ [] ∧ m.length_ = 0
  | MutationType.substitution => m.bases_ ≠ [] ∧ m.length_ = m.bases_.length

instance (m : Mutation) : Decidable m.WellFormed := by
  unfold Mutation.WellFormed
  cases m.type_ <;> infer_instance

/-- Modelled from the spec: the type tie-break priority of SiteComparer
(`Insertion < Substitution < Deletion`); the comparer itself is declared in
the missing header Mutation.h. -/
def typeRank : MutationType → Nat
  | MutationType.insertion => 0
  | MutationType.substitution => 1
  | MutationType.deletion => 2

/-- Modelled from the spec: `Mutation::SiteComparer`, a strict weak ordering
by `(Start, End, type)` with ties broken by the type priority
Insertion < Substitution < Deletion.  Its declaration lives in the missing
header Mutation.h; only its use sites are in src/. -/
def SiteComparer (a b : Mutation) : Prop :=
  a.Start < b.Start ∨
    (a.Start = b.Start ∧
      (a.End < b.End ∨ (a.End = b.End ∧ typeRank a.type_ < typeRank b.type_)))

instance : DecidableRel SiteComparer := by
  unfold SiteComparer
  intro a b
  infer_instance

/-- Non-strict companion of SiteComparer: the order in which a
standard-library comparison sort leaves adjacent elements
(`¬ SiteComparer b a`). -/
def siteLe (a b : Mutation) : Prop := ¬ SiteComparer b a

instance : DecidableRel siteLe := by
  unfold siteLe
  intro a b
  infer_instance

instance : IsTotal Mutation siteLe := by
  constructor
  intro a b
  unfold siteLe SiteComparer
  omega

instance : IsTrans Mutation siteLe := by
  constructor
  intro a b c
  unfold siteLe SiteComparer
  omega

/-- Sorting a mutation vector with `std::sort(..., Mutation::SiteComparer)`.
The standard only pins down the output as a permutation sorted w.r.t. the
comparer; we use insertion sort, which satisfies that contract. -/
def sortBySite (muts : List Mutation) : List Mutation :=
  List.insertionSort siteLe muts

/-- One in-place edit of the right-to-left application loop of ApplyMutations:
`newTpl.insert(Start, Bases)` for an insertion, otherwise
`newTpl.replace(Start, Length, Bases)`. -/
def applyOne (tpl : List Char) (m : Mutation) : List Char :=
  if m.IsInsertion then tpl.take m.Start ++ m.Bases ++ tpl.drop m.Start
  else tpl.take m.Start ++ m.Bases ++ tpl.drop (m.Start + m.Length)

/-- ApplyMutations(oldTpl, muts): sort by SiteComparer, return the template
unchanged when the list or the template is empty, otherwise apply the sorted
edits right-to-left (crbegin to crend). -/
def ApplyMutations (oldTpl : List Char) (muts : List Mutation) : List Char :=
  let sorted := sortBySite muts
  if muts.isEmpty || oldTpl.isEmpty then oldTpl
  else sorted.foldr (fun m t => applyOne t m) oldTpl

/-- Mutation::Translate(start, length): restriction of the mutation to the
window `[start, start+length)` shifted to origin 0, `none` when disjoint
(insertions extend the window test by one on the right). -/
def Mutation.Translate (m : Mutation) (start length : Nat) : Option Mutation :=
  if m.End + m.insFlag < start ∨ start + length + m.insFlag ≤ m.Start then none
  else
    let newStart := max m.Start start
    let newLen := min m.End (start + length) - newStart
    if m.IsInsertion then some (Mutation.Insertion (newStart - start) m.Bases)
    else if newLen = 0 then none
    else if m.IsDeletion then some (Mutation.Deletion (newStart - start) newLen)
    else some (Mutation.Substitution (newStart - start)
      ((m.Bases.drop (newStart - m.Start)).take newLen))

/-- A mutation is contained in a template of length L when its edit window
lies inside it: `Start + Length ≤ L` for substitutions/deletions and
`Start ≤ L` for insertions. -/
def Mutation.ContainedIn (m : Mutation) (L : Nat) : Prop :=
  if m.IsInsertion then m.Start ≤ L else m.Start + m.Length ≤ L

instance (m : Mutation) (L : Nat) : Decidable (m.ContainedIn L) := by
  unfold Mutation.ContainedIn
  infer_instance

/-- Modelled from the spec: `ChemistryTriple` (its header is not under src/)
is a record of four kit/version numbers; only their linear order is used by
the comparer. -/
structure ChemistryTriple where
  BindingKit : Nat
  SequencingKit : Nat
  MajorVersion : Nat
  MinorVersion : Nat
deriving DecidableEq, Repr

/-- ChemistryComparer::operator(): the `or` of field-wise `<` comparisons,
exactly as written in ChemistryMapping.h. -/
def ChemistryComparer (a b : ChemistryTriple) : Bool :=
  decide (a.BindingKit < b.BindingKit) || decide (a.SequencingKit < b.SequencingKit) ||
    decide (a.MajorVersion < b.MajorVersion) || decide (a.MinorVersion < b.MinorVersion)

/-- C5: for every well-formed mutation contained in a template of length L
(Start + Length ≤ L for substitutions and deletions, Start ≤ L for
insertions), translating with window start 0 and window length L returns the
mutation itself unchanged: `translate(mut, 0, tpl.len) == mut`. -/
theorem claim_C5_translate_identity (m : Mutation) (L : Nat)
    (hwf : m.WellFormed) (hc : m.ContainedIn L) :
    m.Translate 0 L = some m := by
  obtain ⟨bs, ty, st, len⟩ := m
  cases ty
  case deletion =>
    obtain ⟨hbs, hlen⟩ := hwf
    subst hbs
    have hc' : st + len ≤ L := by
      simpa [Mutation.ContainedIn, Mutation.IsInsertion, Mutation.Start,
        Mutation.Length] using hc
    simp only [Mutation.Translate, Mutation.End, Mutation.insFlag,
      Mutation.IsInsertion, Mutation.IsDeletion, Mutation.Deletion,
      Mutation.Start, Mutation.Bases, decide_eq_true_eq, reduceCtorEq,
      if_false]
    split_ifs with h1 h2 <;> simp_all <;> omega
  case insertion =>
    obtain ⟨hbs, hlen⟩ := hwf
    subst hlen
    have hc' : st ≤ L := by
      simpa [Mutation.ContainedIn, Mutation.IsInsertion, Mutation.Start] using hc
    simp only [Mutation.Translate, Mutation.End, Mutation.insFlag,
      Mutation.IsInsertion, Mutation.Insertion, Mutation.Start,
      Mutation.Bases, decide_eq_true_eq, if_true]
    split_ifs with h1 <;> simp_all <;> omega
  case substitution =>
    obtain ⟨hbs, hlen⟩ := hwf
    dsimp only at hbs hlen
    subst hlen
    have hpos : 1 ≤ bs.length := List.length_pos.mpr hbs
    have hc' : st + bs.length ≤ L := by
      simpa [Mutation.ContainedIn, Mutation.IsInsertion, Mutation.Start,
        Mutation.Length] using hc
    have e1 : max st 0 = st := by omega
    have e2 : min (st + bs.length) (0 + L) - st = bs.length := by omega
    simp only [Mutation.Translate, Mutation.End, Mutation.insFlag,
      Mutation.IsInsertion, Mutation.IsDeletion, Mutation.Substitution,
      Mutation.Start, Mutation.Bases, decide_eq_true_eq, reduceCtorEq,
      if_false, e1, e2]
    split_ifs with h1 h2
    · omega
    · omega
    · have e3 : st - st = 0 := by omega
      simp only [e3, List.drop_zero, List.take_length, Nat.sub_zero,
        Option.some.injEq, Mutation.mk.injEq, true_and, and_true]
      all_goals omega

/-- Witness for C5 at a concrete substitution inside a length-4 template. -/
theorem claim_C5_translate_identity_witness :
    (Mutation.Substitution 1 ['C']).WellFormed ∧
      (Mutation.Substitution 1 ['C']).ContainedIn 4 ∧
      (Mutation.Substitution 1 ['C']).Translate 0 4 =
        some (Mutation.Substitution 1 ['C']) :=
  ⟨by decide, by decide,
    claim_C5_translate_identity (Mutation.Substitution 1 ['C']) 4
      (by decide) (by decide)⟩

/-- C9: the ChemistryComparer relation is not a strict weak ordering:
with `a` having the smaller BindingKit and `b` the smaller SequencingKit,
both `comparer(a, b)` and `comparer(b, a)` hold, violating asymmetry. -/
theorem claim_C9_comparer_not_asymmetric :
    ChemistryComparer ⟨0, 1, 0, 0⟩ ⟨1, 0, 0, 0⟩ = true ∧
      ChemistryComparer ⟨1, 0, 0, 0⟩ ⟨0, 1, 0, 0⟩ = true ∧
      ¬ (∀ a b : ChemistryTriple,
          ChemistryComparer a b = true → ChemistryComparer b a = false) := by
  refine ⟨by decide, by decide, fun h => ?_⟩
  have h1 := h ⟨0, 1, 0, 0⟩ ⟨1, 0, 0, 0⟩ (by decide)
  have h2 : ChemistryComparer ⟨1, 0, 0, 0⟩ ⟨0, 1, 0, 0⟩ = true := by decide
  rw [h1] at h2
  exact Bool.false_ne_true h2

/-- Pairwise non-overlap under the End+insertion rule: one mutation ends
(insertions extending their end by one) strictly before the other starts. -/
def NonOverlapping (a b : Mutation) : Prop :=
  a.End + a.insFlag < b.Start ∨ b.End + b.insFlag < a.Start

instance (a b : Mutation) : Decidable (NonOverlapping a b) := by
  unfold NonOverlapping
  infer_instance

theorem nonOverlapping_symm : Symmetric NonOverlapping := by
  intro a b h
  exact h.symm

/-- Non-overlapping mutations can never tie under the site comparer: at most
one direction of `siteLe` can hold between two of them unless they are equal,
because their Start coordinates must differ. -/
theorem nonOverlapping_not_both_siteLe (a b : Mutation) (h : NonOverlapping a b) :
    ¬ (siteLe a b ∧ siteLe b a) := by
  unfold NonOverlapping Mutation.End Mutation.Start Mutation.insFlag at h
  unfold siteLe SiteComparer Mutation.Start Mutation.End
  omega

/-- A sorted list is determined by its multiset of elements when the order is
antisymmetric on those elements. -/
theorem sorted_perm_unique {α : Type} {r : α → α → Prop} :
    ∀ {l₁ l₂ : List α}, l₁.Perm l₂ → List.Sorted r l₁ → List.Sorted r l₂ →
      (∀ a ∈ l₁, ∀ b ∈ l₁, r a b → r b a → a = b) → l₁ = l₂ := by
  intro l₁
  induction l₁ with
  | nil =>
    intro l₂ hp _ _ _
    exact (hp.symm.eq_nil).symm
  | cons a t ih =>
    intro l₂ hp h1 h2 hanti
    cases l₂ with
    | nil => exact absurd hp.eq_nil (by simp)
    | cons b t₂ =>
      have hab : a = b := by
        by_contra hne
        have hbmem : b ∈ a :: t := hp.mem_iff.mpr (List.mem_cons_self b t₂)
        have hamem : a ∈ b :: t₂ := hp.mem_iff.mp (List.mem_cons_self a t)
        have hb' : b ∈ t := by
          cases hbmem with
          | head => exact absurd rfl hne
          | tail _ h => exact h
        have ha' : a ∈ t₂ := by
          cases hamem with
          | head => exact absurd rfl hne
          | tail _ h => exact h
        have hrab : r a b := (List.sorted_cons.mp h1).1 b hb'
        have hrba : r b a := (List.sorted_cons.mp h2).1 a ha'
        exact hne (hanti a (List.mem_cons_self a t) b (List.mem_cons_of_mem a hb')
          hrab hrba)
      subst hab
      have ht : t.Perm t₂ := hp.cons_inv
      have := ih ht (List.sorted_cons.mp h1).2 (List.sorted_cons.mp h2).2
        (fun x hx y hy => hanti x (List.mem_cons_of_mem a hx) y
          (List.mem_cons_of_mem a hy))
      rw [this]

/-- Sorting by site gives the same list for any permutation of a pairwise
non-overlapping mutation set. -/
theorem sortBySite_eq_of_perm (l₁ l₂ : List Mutation) (hp : l₁.Perm l₂)
    (hd : l₁.Pairwise NonOverlapping) : sortBySite l₁ = sortBySite l₂ := by
  apply sorted_perm_unique
    ((List.perm_insertionSort siteLe l₁).trans
      (hp.trans (List.perm_insertionSort siteLe l₂).symm))
    (List.sorted_insertionSort siteLe l₁) (List.sorted_insertionSort siteLe l₂)
  intro a ha b hb hab hba
  by_contra hne
  have ha' : a ∈ l₁ := (List.perm_insertionSort siteLe l₁).mem_iff.mp ha
  have hb' : b ∈ l₁ := (List.perm_insertionSort siteLe l₁).mem_iff.mp hb
  exact nonOverlapping_not_both_siteLe a b
    (hd.forall nonOverlapping_symm ha' hb' hne) ⟨hab, hba⟩

/-- C1: applying a pairwise non-overlapping mutation set is independent of
the order the mutations appear in the input list: ApplyMutations sorts by
site and applies right-to-left, so any permutation of the same set yields
the same output string. -/
theorem claim_C1_apply_order_independent (tpl : List Char)
    (l₁ l₂ : List Mutation) (hp : l₁.Perm l₂)
    (hd : l₁.Pairwise NonOverlapping) :
    ApplyMutations tpl l₁ = ApplyMutations tpl l₂ := by
  have he : l₁.isEmpty = l₂.isEmpty := by
    cases l₁ with
    | nil =>
      have : l₂ = [] := hp.symm.eq_nil
      rw [this]
    | cons a t =>
      cases l₂ with
      | nil => exact absurd hp.eq_nil (by simp)
      | cons b t₂ => rfl
  simp only [ApplyMutations, sortBySite_eq_of_perm l₁ l₂ hp hd, he]

/-- Witness for C1: a substitution at 0 and a deletion at 2 applied to ACGT
in both orders. -/
theorem claim_C1_apply_order_independent_witness :
    ([Mutation.Substitution 0 ['C'], Mutation.Deletion 2 1].Perm
        [Mutation.Deletion 2 1, Mutation.Substitution 0 ['C']]) ∧
      ([Mutation.Substitution 0 ['C'],
        Mutation.Deletion 2 1].Pairwise NonOverlapping) ∧
      ApplyMutations ['A', 'C', 'G', 'T']
          [Mutation.Substitution 0 ['C'], Mutation.Deletion 2 1] =
        ApplyMutations ['A', 'C', 'G', 'T']
          [Mutation.Deletion 2 1, Mutation.Substitution 0 ['C']] :=
  ⟨by decide, by decide,
    claim_C1_apply_order_independent ['A', 'C', 'G', 'T'] _ _
      (by decide) (by decide)⟩

/-- The `\0` character initialising `last` before the candidate loop. -/
def nullChar : Char := Char.ofNat 0

/-- Body of the candidate-generation loop of `Mutations` (Polish.cpp): at
each position emit non-homopolymer insertions, the deletion when the base
differs from the previous one, and substitutions to the other bases; after
the last position emit the trailing insertions at `fin`.  The extra fuel
argument counts the remaining loop iterations (`fin - i` at every call). -/
def mutationsAux (tpl bases : List Char) : Char → Nat → Nat → Nat → List Mutation
  | last, _, fin, 0 =>
      (bases.filter (fun j => j ≠ last)).map (fun j => Mutation.Insertion fin [j])
  | last, i, fin, n + 1 =>
      let curr := tpl.getD i nullChar
      ((bases.filter (fun j => j ≠ last)).map (fun j => Mutation.Insertion i [j]))
        ++ (if curr ≠ last then [Mutation.Deletion i 1] else [])
        ++ ((bases.filter (fun j => j ≠ curr)).map
            (fun j => Mutation.Substitution i [j]))
        ++ mutationsAux tpl bases curr (i + 1) fin n

/-- Mutations(ai, start, end, diploid): the haploid base set is ACGT, the
diploid one the sentinel Z; return nothing when the window is empty,
otherwise run the loop with `last` seeded from the base before the window. -/
def MutationsGen (tpl : List Char) (start fin : Nat) (diploid : Bool) :
    List Mutation :=
  let bases := if diploid then ['Z'] else ['A', 'C', 'G', 'T']
  if start = fin then []
  else
    mutationsAux tpl bases
      (if 0 < start then tpl.getD (start - 1) nullChar else nullChar)
      start fin (fin - start)

/-- Previous base of position i (`'\0'` at the origin), the value the loop
variable `last` holds when the loop reaches position i. -/
def lastOf (tpl : List Char) (i : Nat) : Char :=
  if 0 < i then tpl.getD (i - 1) nullChar else nullChar

/-- The claim's description of the candidates emitted at one position. -/
def siteMuts (tpl bases : List Char) (i : Nat) : List Mutation :=
  ((bases.filter (fun j => j ≠ lastOf tpl i)).map (fun j => Mutation.Insertion i [j]))
    ++ (if tpl.getD i nullChar ≠ lastOf tpl i then [Mutation.Deletion i 1] else [])
    ++ ((bases.filter (fun j => j ≠ tpl.getD i nullChar)).map
        (fun j => Mutation.Substitution i [j]))

/-- The claim's description of the whole candidate set over `[start, fin)`:
the per-position candidates in position order, then the trailing insertions
at `fin` — and nothing else. -/
def describedMuts (tpl bases : List Char) (start fin : Nat) : List Mutation :=
  ((List.range' start (fin - start)).map (siteMuts tpl bases)).flatten
    ++ (bases.filter (fun j => j ≠ lastOf tpl fin)).map
        (fun j => Mutation.Insertion fin [j])

theorem mutationsAux_eq (tpl bases : List Char) :
    ∀ (n i : Nat), mutationsAux tpl bases (lastOf tpl i) i (i + n) n =
      ((List.range' i n).map (siteMuts tpl bases)).flatten ++
        (bases.filter (fun j => j ≠ lastOf tpl (i + n))).map
          (fun j => Mutation.Insertion (i + n) [j]) := by
  intro n
  induction n with
  | zero =>
    intro i
    simp [mutationsAux]
  | succ n ih =>
    intro i
    have hcurr : tpl.getD i nullChar = lastOf tpl (i + 1) := by
      simp [lastOf]
    calc mutationsAux tpl bases (lastOf tpl i) i (i + (n + 1)) (n + 1)
        = siteMuts tpl bases i
            ++ mutationsAux tpl bases (lastOf tpl (i + 1)) (i + 1) ((i + 1) + n) n := by
          simp only [mutationsAux, siteMuts, hcurr, List.append_assoc]
          have : i + (n + 1) = (i + 1) + n := by omega
          rw [this]
      _ = siteMuts tpl bases i
            ++ (((List.range' (i + 1) n).map (siteMuts tpl bases)).flatten ++
              (bases.filter (fun j => j ≠ lastOf tpl ((i + 1) + n))).map
                (fun j => Mutation.Insertion ((i + 1) + n) [j])) := by
          rw [ih (i + 1)]
      _ = _ := by
          have : (i + 1) + n = i + (n + 1) := by omega
          rw [this, List.range'_succ]
          simp [List.append_assoc]

/-- C6: over every non-empty window, the haploid candidate generator emits
exactly the claimed candidate set: per position i, insertions of each base
different from the previous base, a deletion of length 1 exactly when the
current base differs from the previous one, substitutions to each different
base; and after the last position the trailing non-homopolymer insertions —
and no other candidates. -/
theorem claim_C6_candidate_generator (tpl : List Char) (start fin : Nat)
    (h : start < fin) :
    MutationsGen tpl start fin false =
      describedMuts tpl ['A', 'C', 'G', 'T'] start fin := by
  obtain ⟨n, rfl⟩ : ∃ n, fin = start + n := ⟨fin - start, by omega⟩
  unfold MutationsGen describedMuts
  rw [if_neg (by omega)]
  have hl : (if 0 < start then tpl.getD (start - 1) nullChar else nullChar) =
      lastOf tpl start := rfl
  have hn : start + n - start = n := by omega
  simp only [if_false, hl, hn]
  exact mutationsAux_eq tpl ['A', 'C', 'G', 'T'] n start

/-- Witness for C6 on the template AC over the full window. -/
theorem claim_C6_candidate_generator_witness :
    0 < 2 ∧ MutationsGen ['A', 'C'] 0 2 false =
      describedMuts ['A', 'C'] ['A', 'C', 'G', 'T'] 0 2 :=
  ⟨by decide, claim_C6_candidate_generator ['A', 'C'] 0 2 (by decide)⟩

/-- ScoredMutation: a Mutation plus its score (`double` modelled as ℚ; only
the order on scores is used by the selection code). -/
structure ScoredMutation where
  m : Mutation
  Score : ℚ
deriving DecidableEq, Repr

/-- The `max_element(..., ScoreComparer)` scan: keep the current maximum,
replace it only on a strictly larger score (so the first maximum wins). -/
def maxByScore (best : ScoredMutation) : List ScoredMutation → ScoredMutation
  | [] => best
  | x :: rest => maxByScore (if best.Score < x.Score then x else best) rest

/-- The remove_if window of BestMutations: with
`start = (separation < Start) ? Start - separation : 0` and
`end = End + separation`, a candidate `x` is removed when
`start ≤ x.End ∧ x.Start < end`. -/
def inWindow (c : Mutation) (sep : Nat) (x : ScoredMutation) : Bool :=
  let wstart := if sep < c.Start then c.Start - sep else 0
  let wend := c.End + sep
  decide (wstart ≤ x.m.End) && decide (x.m.Start < wend)

/-- The BestMutations selection loop: repeatedly emit the highest-scoring
remaining candidate and drop every candidate inside its separation window.
Fuel bounds the iterations; `scoredMuts.length` is enough because every
round removes at least the chosen candidate (separation ≥ 1). -/
def bestMutationsGo (sep : Nat) : Nat → List ScoredMutation → List Mutation
  | 0, _ => []
  | _ + 1, [] => []
  | fuel + 1, x :: rest =>
      let chosen := maxByScore x rest
      chosen.m :: bestMutationsGo sep fuel
        ((x :: rest).filter (fun y => !(inWindow chosen.m sep y)))

/-- BestMutations(scoredMuts, separation): reject separation == 0 with
invalid_argument, otherwise run the greedy selection loop. -/
def BestMutations (scoredMuts : List ScoredMutation) (separation : Nat) :
    Except String (List Mutation) :=
  if separation = 0 then Except.error "nonzero separation required"
  else Except.ok (bestMutationsGo separation scoredMuts.length scoredMuts)

theorem maxByScore_mem (l : List ScoredMutation) :
    ∀ best, maxByScore best l = best ∨ maxByScore best l ∈ l := by
  induction l with
  | nil => intro best; exact Or.inl rfl
  | cons x rest ih =>
    intro best
    simp only [maxByScore]
    rcases ih (if best.Score < x.Score then x else best) with h | h
    · rw [h]
      split_ifs with hc
      · exact Or.inr (List.mem_cons_self x rest)
      · exact Or.inl rfl
    · exact Or.inr (List.mem_cons_of_mem x h)

theorem mem_of_mem_bestMutationsGo (sep : Nat) :
    ∀ (fuel : Nat) (l : List ScoredMutation) (z : Mutation),
      z ∈ bestMutationsGo sep fuel l → ∃ s ∈ l, s.m = z := by
  intro fuel
  induction fuel with
  | zero => intro l z hz; simp [bestMutationsGo] at hz
  | succ fuel ih =>
    intro l z hz
    cases l with
    | nil => simp [bestMutationsGo] at hz
    | cons x rest =>
      simp only [bestMutationsGo, List.mem_cons] at hz
      rcases hz with hz | hz
      · rcases maxByScore_mem rest x with h | h
        · exact ⟨x, List.mem_cons_self x rest, by rw [h] at hz; exact hz.symm⟩
        · exact ⟨maxByScore x rest, List.mem_cons_of_mem x h, hz.symm⟩
      · obtain ⟨s, hs, hsz⟩ := ih _ z hz
        exact ⟨s, (List.mem_filter.mp hs).1, hsz⟩

/-- A survivor of the removal filter is separated from the chosen mutation
by at least `sep` template bases. -/
theorem inWindow_false_sep (c : Mutation) (sep : Nat) (x : ScoredMutation)
    (h : inWindow c sep x = false) :
    c.End + sep ≤ x.m.Start ∨ x.m.End + sep ≤ c.Start := by
  unfold inWindow at h
  simp only [Bool.and_eq_false_iff, decide_eq_false_iff_not, not_le, not_lt] at h
  rcases h with h | h
  · split_ifs at h with hc
    · omega
    · omega
  · omega

/-- Any two distinct mutations emitted by the selection loop are separated
by at least `sep` bases. -/
theorem bestMutationsGo_pairwise (sep : Nat) :
    ∀ (fuel : Nat) (l : List ScoredMutation),
      (bestMutationsGo sep fuel l).Pairwise
        (fun a b => a.End + sep ≤ b.Start ∨ b.End + sep ≤ a.Start) := by
  intro fuel
  induction fuel with
  | zero => intro l; simp [bestMutationsGo]
  | succ fuel ih =>
    intro l
    cases l with
    | nil => simp [bestMutationsGo]
    | cons x rest =>
      simp only [bestMutationsGo]
      refine List.Pairwise.cons ?_ (ih _)
      intro z hz
      obtain ⟨s, hs, rfl⟩ := mem_of_mem_bestMutationsGo sep fuel _ z hz
      have hsurv : inWindow (maxByScore x rest).m sep s = false := by
        have := (List.mem_filter.mp hs).2
        simpa using this
      exact inWindow_false_sep _ sep s hsurv

theorem length_filter_lt_of_mem_not {α : Type} (p : α → Bool) :
    ∀ (l : List α) (a : α), a ∈ l → p a = false →
      (l.filter p).length < l.length := by
  intro l
  induction l with
  | nil => intro a ha; cases ha
  | cons x rest ih =>
    intro a ha hpa
    rcases List.mem_cons.mp ha with rfl | ha'
    · simp only [List.filter_cons, hpa, Bool.false_eq_true, if_false,
        List.length_cons]
      have := List.length_filter_le p rest
      omega
    · simp only [List.filter_cons, List.length_cons]
      split
      · simp only [List.length_cons]
        have := ih a ha' hpa
        omega
      · have := ih a ha' hpa
        omega

/-- The chosen candidate always lies inside its own removal window when the
separation is positive (this is what makes each round shrink the pool). -/
theorem inWindow_self (c : ScoredMutation) (sep : Nat) (h : 1 ≤ sep) :
    inWindow c.m sep c = true := by
  unfold inWindow Mutation.Start Mutation.End
  simp only [Bool.and_eq_true, decide_eq_true_eq]
  constructor
  · split_ifs with hc <;> omega
  · omega

/-- Every input candidate is either emitted or lies inside the separation
window of some emitted mutation. -/
theorem bestMutationsGo_covers (sep : Nat) (hsep : 1 ≤ sep) :
    ∀ (fuel : Nat) (l : List ScoredMutation), l.length ≤ fuel →
      ∀ y ∈ l, ∃ c ∈ bestMutationsGo sep fuel l, inWindow c sep y = true := by
  intro fuel
  induction fuel with
  | zero =>
    intro l hlen y hy
    have hl : l = [] := List.length_eq_zero.mp (by omega)
    subst hl
    cases hy
  | succ fuel ih =>
    intro l hlen y hy
    cases l with
    | nil => cases hy
    | cons x rest =>
      rcases Bool.eq_false_or_eq_true (inWindow (maxByScore x rest).m sep y)
        with hw | hw
      · exact ⟨(maxByScore x rest).m,
          by simp only [bestMutationsGo]; exact List.mem_cons_self _ _, hw⟩
      · have hy' : y ∈ (x :: rest).filter
            (fun z => !(inWindow (maxByScore x rest).m sep z)) :=
          List.mem_filter.mpr ⟨hy, by simp [hw]⟩
        have hchosen : maxByScore x rest ∈ x :: rest := by
          rcases maxByScore_mem rest x with h | h
          · rw [h]; exact List.mem_cons_self x rest
          · exact List.mem_cons_of_mem x h
        have hlt : ((x :: rest).filter
            (fun z => !(inWindow (maxByScore x rest).m sep z))).length <
              (x :: rest).length := by
          refine length_filter_lt_of_mem_not _ (x :: rest) (maxByScore x rest)
            hchosen ?_
          simp only [Bool.not_eq_false']
          exact inWindow_self (maxByScore x rest) sep hsep
        have hlen' : ((x :: rest).filter
            (fun z => !(inWindow (maxByScore x rest).m sep z))).length ≤ fuel := by
          simp only [List.length_cons] at hlen hlt
          omega
        obtain ⟨c, hc, hcy⟩ := ih _ hlen' y hy'
        refine ⟨c, ?_, hcy⟩
        simp only [bestMutationsGo]
        exact List.mem_cons_of_mem _ hc

/-- C2: BestMutations rejects separation 0 as invalid; on success its output
is pairwise separated by at least `separation` template bases, and every
input candidate falls inside the separation window of some emitted mutation
(the greedy remove-within-window loop). -/
theorem claim_C2_best_mutations :
    (∀ l, BestMutations l 0 = Except.error "nonzero separation required") ∧
      (∀ (sep : Nat) (l : List ScoredMutation) (r : List Mutation),
        BestMutations l sep = Except.ok r →
          r.Pairwise (fun a b => a.End + sep ≤ b.Start ∨ b.End + sep ≤ a.Start)) ∧
      (∀ (sep : Nat) (l : List ScoredMutation) (r : List Mutation),
        BestMutations l sep = Except.ok r →
          ∀ y ∈ l, ∃ c ∈ r, inWindow c sep y = true) := by
  refine ⟨fun l => by simp [BestMutations], ?_, ?_⟩
  · intro sep l r h
    unfold BestMutations at h
    split_ifs at h with hs
    injection h with h2
    rw [← h2]
    exact bestMutationsGo_pairwise sep l.length l
  · intro sep l r h y hy
    unfold BestMutations at h
    split_ifs at h with hs
    injection h with h2
    rw [← h2]
    exact bestMutationsGo_covers sep (by omega) l.length l (le_refl _) y hy

/-- Witness for C2 on a single scored substitution with separation 1. -/
theorem claim_C2_best_mutations_witness :
    BestMutations [⟨Mutation.Substitution 0 ['C'], 5⟩] 1 =
        Except.ok [Mutation.Substitution 0 ['C']] ∧
      ([Mutation.Substitution 0 ['C']] : List Mutation).Pairwise
        (fun a b => a.End + 1 ≤ b.Start ∨ b.End + 1 ≤ a.Start) :=
  ⟨by rfl,
    claim_C2_best_mutations.2.1 1 [⟨Mutation.Substitution 0 ['C'], 5⟩]
      [Mutation.Substitution 0 ['C']] (by rfl)⟩

/-- Modelled from the spec: an Evaluator as seen through the Integrator
interface of Integrator.h — a validity flag plus oracles for `ll()` and
`ll(mut)` on the current template, the latter failing (`none`) when the
Evaluator cannot score that mutation. -/
structure Ev where
  valid : Bool
  llFun : List Char → ℚ
  llMutFun : List Char → Mutation → Option ℚ

def validCount (evs : List Ev) : Nat := (evs.filter (fun e => e.valid)).length

/-- Integrator::LL(): sum of log-likelihoods over the VALID Evaluators. -/
def intLL (evs : List Ev) (tpl : List Char) : ℚ :=
  ((evs.filter (fun e => e.valid)).map (fun e => e.llFun tpl)).sum

/-- Integrator::LL(mut), per the contract documented in Integrator.h: if any
valid Evaluator cannot score the mutation it is invalidated and the call
fails with InvalidEvaluator (the error carries the updated Evaluator list);
otherwise the sum over valid Evaluators is returned. -/
def intLLMut : List Ev → List Char → Mutation → Except (List Ev) ℚ
  | [], _, _ => Except.ok 0
  | e :: rest, tpl, m =>
      if e.valid then
        match e.llMutFun tpl m with
        | none => Except.error ({ e with valid := false } :: rest)
        | some v =>
            match intLLMut rest tpl m with
            | Except.error rest' => Except.error (e :: rest')
            | Except.ok s => Except.ok (v + s)
      else
        match intLLMut rest tpl m with
        | Except.error rest' => Except.error (e :: rest')
        | Except.ok s => Except.ok s

theorem validCount_cons (e : Ev) (l : List Ev) :
    validCount (e :: l) = if e.valid then validCount l + 1 else validCount l := by
  unfold validCount
  simp only [List.filter_cons]
  split_ifs with h <;> simp [h]

/-- An InvalidEvaluator failure disables exactly one Evaluator. -/
theorem intLLMut_error_validCount :
    ∀ (evs : List Ev) (tpl : List Char) (m : Mutation) (evs' : List Ev),
      intLLMut evs tpl m = Except.error evs' →
        validCount evs = validCount evs' + 1 := by
  intro evs
  induction evs with
  | nil => intro tpl m evs' h; simp [intLLMut] at h
  | cons e rest ih =>
    intro tpl m evs' h
    simp only [intLLMut] at h
    split_ifs at h with hv
    · cases hm : e.llMutFun tpl m with
      | none =>
        rw [hm] at h
        injection h with h2
        rw [← h2, validCount_cons, validCount_cons]
        simp [hv]
      | some v =>
        rw [hm] at h
        cases hr : intLLMut rest tpl m with
        | error rest' =>
          rw [hr] at h
          injection h with h2
          rw [← h2, validCount_cons, validCount_cons]
          simp only [hv, if_true]
          have := ih tpl m rest' hr
          omega
        | ok s => rw [hr] at h; cases h
    · cases hr : intLLMut rest tpl m with
      | error rest' =>
        rw [hr] at h
        injection h with h2
        rw [← h2, validCount_cons, validCount_cons]
        simp only [hv, if_false]
        exact ih tpl m rest' hr
      | ok s => rw [hr] at h; cases h

/-- The scoring loop over the candidate set: `++mutationsTested` then
`ll = ai->LL(mut)`, keeping `mut.WithScore(ll)` whenever `ll > LL`; an
InvalidEvaluator failure aborts the whole pass. -/
def tryScoreGo (evs : List Ev) (tpl : List Char) (LL : ℚ) :
    List Mutation → Nat → List ScoredMutation →
      Except (List Ev) (List ScoredMutation × Nat)
  | [], tested, acc => Except.ok (acc, tested)
  | m0 :: rest, tested, acc =>
      match intLLMut evs tpl m0 with
      | Except.error evs' => Except.error evs'
      | Except.ok ll =>
          tryScoreGo evs tpl LL rest (tested + 1)
            (if LL < ll then acc ++ [⟨m0, ll⟩] else acc)

/-- The do/while wrapper of the scoring pass: recompute the baseline, run
the pass; on an InvalidEvaluator failure discard the scored candidates,
reset the counter and restart over the same candidate set with the updated
Evaluators.  Fuel bounds the retries; `validCount evs + 1` is enough since
every failure disables one Evaluator. -/
def scoringLoop (tpl : List Char) (muts : List Mutation) :
    Nat → List Ev → List Ev × List ScoredMutation × Nat
  | 0, evs => (evs, [], 0)
  | fuel + 1, evs =>
      match tryScoreGo evs tpl (intLL evs tpl) muts 0 [] with
      | Except.ok (scored, tested) => (evs, scored, tested)
      | Except.error evs' => scoringLoop tpl muts fuel evs'

/-- The complete scoring pass of one Polish round (haploid branch). -/
def scoringPass (evs : List Ev) (tpl : List Char) (muts : List Mutation) :
    List Ev × List ScoredMutation × Nat :=
  scoringLoop tpl muts (validCount evs + 1) evs

theorem tryScoreGo_error_validCount (evs : List Ev) (tpl : List Char) (LL : ℚ) :
    ∀ (muts : List Mutation) (tested : Nat) (acc : List ScoredMutation)
      (evs' : List Ev),
      tryScoreGo evs tpl LL muts tested acc = Except.error evs' →
        validCount evs = validCount evs' + 1 := by
  intro muts
  induction muts with
  | nil => intro tested acc evs' h; simp [tryScoreGo] at h
  | cons m0 rest ih =>
    intro tested acc evs' h
    simp only [tryScoreGo] at h
    cases hm : intLLMut evs tpl m0 with
    | error e' =>
      rw [hm] at h
      injection h with h2
      rw [← h2]
      exact intLLMut_error_validCount evs tpl m0 e' hm
    | ok ll =>
      rw [hm] at h
      exact ih _ _ evs' h

theorem tryScoreGo_ok_tested (evs : List Ev) (tpl : List Char) (LL : ℚ) :
    ∀ (muts : List Mutation) (tested : Nat) (acc : List ScoredMutation)
      (s : List ScoredMutation) (n : Nat),
      tryScoreGo evs tpl LL muts tested acc = Except.ok (s, n) →
        n = tested + muts.length := by
  intro muts
  induction muts with
  | nil =>
    intro tested acc s n h
    simp only [tryScoreGo] at h
    injection h with h2
    cases h2
    simp
  | cons m0 rest ih =>
    intro tested acc s n h
    simp only [tryScoreGo] at h
    cases hm : intLLMut evs tpl m0 with
    | error e' => rw [hm] at h; cases h
    | ok ll =>
      rw [hm] at h
      have := ih _ _ s n h
      simp only [List.length_cons]
      omega

theorem scoringLoop_spec (tpl : List Char) (muts : List Mutation) :
    ∀ (fuel : Nat) (evs : List Ev), validCount evs < fuel →
      tryScoreGo (scoringLoop tpl muts fuel evs).1 tpl
          (intLL (scoringLoop tpl muts fuel evs).1 tpl) muts 0 [] =
        Except.ok ((scoringLoop tpl muts fuel evs).2.1,
          (scoringLoop tpl muts fuel evs).2.2) ∧
      validCount (scoringLoop tpl muts fuel evs).1 ≤ validCount evs := by
  intro fuel
  induction fuel with
  | zero => intro evs h; omega
  | succ fuel ih =>
    intro evs h
    cases htry : tryScoreGo evs tpl (intLL evs tpl) muts 0 [] with
    | ok p =>
      obtain ⟨s, n⟩ := p
      simp only [scoringLoop, htry]
      exact ⟨trivial, le_refl _⟩
    | error evs' =>
      have hdec : validCount evs = validCount evs' + 1 :=
        tryScoreGo_error_validCount evs tpl (intLL evs tpl) muts 0 [] evs' htry
      have := ih evs' (by omega)
      simp only [scoringLoop, htry]
      exact ⟨this.1, by omega⟩

/-- C4: if any LL(mut) call in the scoring pass signals InvalidEvaluator,
the scored candidates are discarded, the counter reset, and the pass
restarted over the same candidate set with the offending Evaluator disabled;
the exception never escapes (`scoringPass` is total), the returned scored
set and counter are those of one uninterrupted pass over the final Evaluator
set, the counter equals the full candidate count, and the number of valid
Evaluators never increases. -/
theorem claim_C4_invalid_evaluator_restart (evs : List Ev) (tpl : List Char)
    (muts : List Mutation) :
    tryScoreGo (scoringPass evs tpl muts).1 tpl
        (intLL (scoringPass evs tpl muts).1 tpl) muts 0 [] =
      Except.ok ((scoringPass evs tpl muts).2.1,
        (scoringPass evs tpl muts).2.2) ∧
      validCount (scoringPass evs tpl muts).1 ≤ validCount evs ∧
      (scoringPass evs tpl muts).2.2 = muts.length := by
  have h := scoringLoop_spec tpl muts (validCount evs + 1) evs (by omega)
  refine ⟨h.1, h.2, ?_⟩
  have := tryScoreGo_ok_tested (scoringPass evs tpl muts).1 tpl
    (intLL (scoringPass evs tpl muts).1 tpl) muts 0 []
    (scoringPass evs tpl muts).2.1 (scoringPass evs tpl muts).2.2 h.1
  simpa using this

/-- The run-length count of RepeatMutations: starting from `j = i + rs`,
count consecutive `rs`-mers equal to the one at `i` while `j + rs ≤ fin`.
Fuel bounds the scan; `fin + 1` is enough since `j` grows by `rs ≥ 1` per
step. -/
def repeatCount (tpl : List Char) (rs fin i : Nat) : Nat → Nat → Nat
  | _, 0 => 0
  | j, fuel + 1 =>
      if j + rs ≤ fin then
        if (tpl.drop j).take rs = (tpl.drop i).take rs then
          1 + repeatCount tpl rs fin i (j + rs) fuel
        else 0
      else 0

/-- The per-repeat-size scan of RepeatMutations: at each run of at least
`minElem` exact `rs`-mer repeats propose the one-more-copy insertion and the
one-fewer-copy deletion, then skip past the run. -/
def repeatScan (tpl : List Char) (minElem rs fin : Nat) : Nat → Nat → List Mutation
  | _, 0 => []
  | i, fuel + 1 =>
      if i + rs ≤ fin then
        let nElem := 1 + repeatCount tpl rs fin i (i + rs) (fin + 1)
        (if minElem ≤ nElem then
            [Mutation.Insertion i ((tpl.drop i).take rs), Mutation.Deletion i rs]
          else [])
          ++ repeatScan tpl minElem rs fin
              (if 1 < nElem then i + rs * (nElem - 1) + 1 else i + 1) fuel
      else []

/-- RepeatMutations(ai, cfg, start, end): nothing when MaximumRepeatSize < 2
or MinimumElementCount == 0; otherwise scan every repeat size from 2 to
MaximumRepeatSize and sort the collected proposals by site. -/
def RepeatMutationsL (tpl : List Char) (maxRepeatSize minElemCount start fin : Nat) :
    List Mutation :=
  if maxRepeatSize < 2 ∨ minElemCount = 0 then []
  else
    sortBySite
      (((List.range (maxRepeatSize - 1)).map
          (fun k => repeatScan tpl minElemCount (k + 2) fin start (fin + 1))).flatten)

/-- PolishResult counters (diagnostic vectors omitted). -/
structure PolishResult where
  hasConverged : Bool
  mutationsTested : Nat
  mutationsApplied : Nat
deriving DecidableEq, Repr

/-- The single-best scan of the PolishRepeats inner loop: `ll = ai->LL(mut)`
and keep the mutation when `ll > LL` and it beats the current best; an
InvalidEvaluator failure aborts the scan. -/
def tryBest (evs : List Ev) (tpl : List Char) (LL : ℚ) :
    List Mutation → Option ScoredMutation →
      Except (List Ev) (Option ScoredMutation)
  | [], best => Except.ok best
  | m0 :: rest, best =>
      match intLLMut evs tpl m0 with
      | Except.error evs' => Except.error evs'
      | Except.ok ll =>
          tryBest evs tpl LL rest
            (if decide (LL < ll) && best.all (fun b => decide (b.Score < ll))
              then some ⟨m0, ll⟩ else best)

/-- The do/while of PolishRepeats: on an InvalidEvaluator failure clear the
best candidate, reset mutationsTested to 0 and rescan; otherwise return the
best candidate and the (never incremented) counter. -/
def repeatsInnerLoop (tpl : List Char) (muts : List Mutation) :
    Nat → List Ev → Nat → List Ev × Option ScoredMutation × Nat
  | 0, evs, tested => (evs, none, tested)
  | fuel + 1, evs, tested =>
      match tryBest evs tpl (intLL evs tpl) muts none with
      | Except.ok best => (evs, best, tested)
      | Except.error evs' => repeatsInnerLoop tpl muts fuel evs' 0

/-- The outer iteration loop of PolishRepeats: generate repeat proposals,
find the single best, stop converged when there is none, otherwise apply it
and continue. -/
def polishRepeatsGo (maxRS minElem : Nat) :
    Nat → List Ev → List Char → PolishResult → PolishResult × List Char × List Ev
  | 0, evs, tpl, res => (res, tpl, evs)
  | fuel + 1, evs, tpl, res =>
      let muts := RepeatMutationsL tpl maxRS minElem 0 tpl.length
      let r := repeatsInnerLoop tpl muts (validCount evs + 1) evs 0
      let res1 := { res with mutationsTested := res.mutationsTested + r.2.2 }
      match r.2.1 with
      | none => ({ res1 with hasConverged := true }, tpl, r.1)
      | some b =>
          polishRepeatsGo maxRS minElem fuel r.1 (ApplyMutations tpl [b.m])
            { res1 with mutationsApplied := res1.mutationsApplied + 1 }

/-- PolishRepeats(ai, cfg) with its fresh PolishResult. -/
def PolishRepeatsL (evs : List Ev) (tpl : List Char)
    (maxRS minElem iterations : Nat) : PolishResult :=
  (polishRepeatsGo maxRS minElem iterations evs tpl
    { hasConverged := false, mutationsTested := 0, mutationsApplied := 0 }).1

theorem repeatsInnerLoop_tested_zero (tpl : List Char) (muts : List Mutation) :
    ∀ (fuel : Nat) (evs : List Ev),
      (repeatsInnerLoop tpl muts fuel evs 0).2.2 = 0 := by
  intro fuel
  induction fuel with
  | zero => intro evs; rfl
  | succ fuel ih =>
    intro evs
    simp only [repeatsInnerLoop]
    cases tryBest evs tpl (intLL evs tpl) muts none with
    | ok best => rfl
    | error evs' => exact ih evs'

theorem polishRepeatsGo_tested (maxRS minElem : Nat) :
    ∀ (fuel : Nat) (evs : List Ev) (tpl : List Char) (res : PolishResult),
      (polishRepeatsGo maxRS minElem fuel evs tpl res).1.mutationsTested =
        res.mutationsTested := by
  intro fuel
  induction fuel with
  | zero => intro evs tpl res; rfl
  | succ fuel ih =>
    intro evs tpl res
    simp only [polishRepeatsGo, repeatsInnerLoop_tested_zero]
    cases (repeatsInnerLoop tpl (RepeatMutationsL tpl maxRS minElem 0 tpl.length)
        (validCount evs + 1) evs 0).2.1 with
    | none => simp [repeatsInnerLoop_tested_zero]
    | some b => rw [ih]; simp [repeatsInnerLoop_tested_zero]

/-- C8: for every Evaluator set and RepeatConfig, the PolishResult returned
by PolishRepeats has mutationsTested equal to 0 — the counter is declared
and reset but never incremented inside the inner scoring loop. -/
theorem claim_C8_polish_repeats_tested_zero (evs : List Ev) (tpl : List Char)
    (maxRS minElem iterations : Nat) :
    (PolishRepeatsL evs tpl maxRS minElem iterations).mutationsTested = 0 := by
  unfold PolishRepeatsL
  rw [polishRepeatsGo_tested]

/-- The clamp lambda of NearbyMutations: `max(0, min<int>(len, i))`. -/
def clampI (len : Nat) (x : Int) : Nat := (max 0 (min (len : Int) x)).toNat

/-- The mutRange lambda: `[diff + Start - neighborhood, diff + End +
neighborhood]` clamped to `[0, len]`. -/
def mutRange (len nbhd : Nat) (m : Mutation) (diff : Int) : Nat × Nat :=
  (clampI len (diff + (m.Start : Int) - (nbhd : Int)),
    clampI len (diff + (m.End : Int) + (nbhd : Int)))

/-- The applied-iterator advance of NearbyMutations: move past every applied
mutation ending at or before the center's start, accumulating LengthDiff. -/
def advanceApplied : List Mutation → Int → Mutation → List Mutation × Int
  | [], diff, _ => ([], diff)
  | a :: rest, diff, c =>
      if a.End ≤ c.Start then advanceApplied rest (diff + a.LengthDiff) c
      else (a :: rest, diff)

/-- `ranges.back().second = nextEnd` on a nonempty range list. -/
def setLastSnd : List (Nat × Nat) → Nat → List (Nat × Nat)
  | [], _ => []
  | [p], ne => [(p.1, ne)]
  | p :: q :: rest, ne => p :: setLastSnd (q :: rest) ne

/-- The range-merging walk of NearbyMutations over the remaining centers;
note the source keeps `currEnd` unchanged when it merges a range into the
previous one. -/
def nearbyRanges (len nbhd : Nat) :
    List Mutation → List Mutation → Int → List (Nat × Nat) → Nat →
      List (Nat × Nat)
  | [], _, _, ranges, _ => ranges
  | c :: cs, app, diff, ranges, currEnd =>
      let ad := advanceApplied app diff c
      let r := mutRange len nbhd c ad.2
      if r.1 ≤ currEnd then
        nearbyRanges len nbhd cs ad.1 ad.2 (setLastSnd ranges r.2) currEnd
      else nearbyRanges len nbhd cs ad.1 ad.2 (ranges ++ [r]) r.2

/-- NearbyMutations(applied, centers, ai, neighborhood, diploid): sort both
lists by site, walk them in lockstep building clamped, merged neighborhood
ranges around the centers (coordinates corrected by the applied LengthDiff
running sum), and run the candidate generator once per range. -/
def NearbyMutationsL (applied centers : List Mutation) (tpl : List Char)
    (neighborhood : Nat) (diploid : Bool) : List Mutation :=
  if centers.isEmpty then []
  else
    match sortBySite centers with
    | [] => []
    | c :: cs =>
        let len := tpl.length
        let ad := advanceApplied (sortBySite applied) 0 c
        let r0 := mutRange len neighborhood c ad.2
        let ranges := nearbyRanges len neighborhood cs ad.1 ad.2 [r0] r0.2
        (ranges.map (fun r => MutationsGen tpl r.1 r.2 diploid)).flatten

/-- State produced by one post-selection step of a Polish iteration. -/
structure PolishStepResult where
  tpl : List Char
  history : List Nat
  appliedCount : Nat
  nextMuts : List Mutation

/-- One post-selection step of the Polish driver (the tail of an iteration
that selected `muts`): hash the template with everything applied; on a
history hit apply only the front of the site-sorted selection (the in-place
sort performed by the string ApplyMutations) and reseed around the selected
set with that single applied mutation, otherwise apply them all; insert the
resulting fingerprint into the history.  The Integrator's template commits
(`ApplyMutation`/`ApplyMutations`, implementation not under src/) are
modelled from the spec as the corresponding string edits. -/
def polishIteration (hashFn : List Char → Nat) (tpl : List Char)
    (history : List Nat) (muts : List Mutation) (nbhd : Nat) (diploid : Bool) :
    PolishStepResult :=
  let newTpl := hashFn (ApplyMutations tpl muts)
  let sorted := sortBySite muts
  if newTpl ∈ history then
    let tpl' := applyOne tpl sorted.headI
    { tpl := tpl', history := history.insert (hashFn tpl'), appliedCount := 1,
      nextMuts := NearbyMutationsL [sorted.headI] sorted tpl' nbhd diploid }
  else
    let tpl' := ApplyMutations tpl muts
    { tpl := tpl', history := history.insert newTpl,
      appliedCount := muts.length,
      nextMuts := NearbyMutationsL sorted sorted tpl' nbhd diploid }

theorem siteLe_refl (a : Mutation) : siteLe a a := by
  unfold siteLe SiteComparer
  omega

theorem sortBySite_idem (l : List Mutation) :
    sortBySite (sortBySite l) = sortBySite l :=
  List.Sorted.insertionSort_eq (List.sorted_insertionSort siteLe l)

theorem sortBySite_isEmpty (l : List Mutation) :
    (sortBySite l).isEmpty = l.isEmpty := by
  have hp : (sortBySite l).Perm l := List.perm_insertionSort siteLe l
  cases l with
  | nil =>
    have h0 : sortBySite [] = ([] : List Mutation) := hp.eq_nil
    rw [h0]
  | cons x t =>
    cases h : sortBySite (x :: t) with
    | nil =>
      exfalso
      rw [h] at hp
      exact absurd hp.symm.eq_nil (by simp)
    | cons y s => rfl

/-- NearbyMutations only depends on its list arguments through their sorted
forms and emptiness. -/
theorem nearby_congr (a a' c c' : List Mutation) (tpl : List Char)
    (n : Nat) (d : Bool) (ha : sortBySite a' = sortBySite a)
    (hc : sortBySite c' = sortBySite c) (he : c'.isEmpty = c.isEmpty) :
    NearbyMutationsL a' c' tpl n d = NearbyMutationsL a c tpl n d := by
  unfold NearbyMutationsL
  rw [ha, hc, he]

/-- C3 (amended): in every Polish iteration with a non-empty selected set,
if the fingerprint of the all-applied template is already in the history the
driver applies exactly one selected mutation — the site-earliest one (the
front of the selection after the in-place site sort), not necessarily the
first selected — and reseeds candidates around the whole selected set via
NearbyMutations keyed to that single applied mutation; otherwise it applies
all selected mutations; in both cases the resulting template's fingerprint
is inserted into the history set. -/
theorem claim_C3_cycle_guard (hashFn : List Char → Nat) (tpl : List Char)
    (history : List Nat) (muts : List Mutation) (nbhd : Nat) (diploid : Bool)
    (hne : muts ≠ []) :
    (hashFn (ApplyMutations tpl muts) ∈ history →
      ∃ m, m ∈ muts ∧ (∀ x ∈ muts, siteLe m x) ∧
        (polishIteration hashFn tpl history muts nbhd diploid).tpl =
          applyOne tpl m ∧
        (polishIteration hashFn tpl history muts nbhd diploid).appliedCount = 1 ∧
        (polishIteration hashFn tpl history muts nbhd diploid).nextMuts =
          NearbyMutationsL [m] muts (applyOne tpl m) nbhd diploid) ∧
    (hashFn (ApplyMutations tpl muts) ∉ history →
      (polishIteration hashFn tpl history muts nbhd diploid).tpl =
          ApplyMutations tpl muts ∧
        (polishIteration hashFn tpl history muts nbhd diploid).appliedCount =
          muts.length ∧
        (polishIteration hashFn tpl history muts nbhd diploid).nextMuts =
          NearbyMutationsL muts muts (ApplyMutations tpl muts) nbhd diploid) ∧
    (polishIteration hashFn tpl history muts nbhd diploid).history =
      history.insert
        (hashFn (polishIteration hashFn tpl history muts nbhd diploid).tpl) := by
  have hsort : List.Sorted siteLe (sortBySite muts) :=
    List.sorted_insertionSort siteLe muts
  have hperm : (sortBySite muts).Perm muts := List.perm_insertionSort siteLe muts
  refine ⟨?_, ?_, ?_⟩
  · intro hmem
    refine ⟨(sortBySite muts).headI, ?_, ?_, ?_, ?_, ?_⟩
    · cases hs : sortBySite muts with
      | nil =>
        exfalso
        rw [hs] at hperm
        exact hne hperm.symm.eq_nil
      | cons a t =>
        rw [hs] at hperm
        exact hperm.subset (by simp)
    · intro x hx
      have hx' : x ∈ sortBySite muts := hperm.mem_iff.mpr hx
      cases hs : sortBySite muts with
      | nil =>
        exfalso
        rw [hs] at hperm
        exact hne hperm.symm.eq_nil
      | cons a t =>
        rw [hs] at hx' hsort
        rcases List.mem_cons.mp hx' with rfl | hx''
        · exact siteLe_refl _
        · exact (List.sorted_cons.mp hsort).1 x hx''
    · simp only [polishIteration, if_pos hmem]
    · simp only [polishIteration, if_pos hmem]
    · simp only [polishIteration, if_pos hmem]
      exact nearby_congr _ _ _ _ _ _ _ rfl (sortBySite_idem muts)
        (sortBySite_isEmpty muts)
  · intro hmem
    refine ⟨?_, ?_, ?_⟩
    · simp only [polishIteration, if_neg hmem]
    · simp only [polishIteration, if_neg hmem]
    · simp only [polishIteration, if_neg hmem]
      exact nearby_congr _ _ _ _ _ _ _ (sortBySite_idem muts)
        (sortBySite_idem muts) (sortBySite_isEmpty muts)
  · by_cases hmem : hashFn (ApplyMutations tpl muts) ∈ history
    · simp only [polishIteration, if_pos hmem]
    · simp only [polishIteration, if_neg hmem]

/-- Witness for C3 (amended) at a singleton selection with empty history. -/
theorem claim_C3_cycle_guard_witness :
    (polishIteration (fun _ => 0) ['A'] [] [Mutation.Substitution 0 ['G']]
        0 false).tpl = ApplyMutations ['A'] [Mutation.Substitution 0 ['G']] :=
  ((claim_C3_cycle_guard (fun _ => 0) ['A'] [] [Mutation.Substitution 0 ['G']]
      0 false (by decide)).2.1 (by decide)).1

/-- Counterexample for C3 as stated: with selection order [Sub(2,C), Sub(0,G)]
(descending score, as BestMutations emits) on template AAAA and the new
fingerprint already in history, the driver applies Sub(0,G) — the
site-earliest mutation after the in-place sort — producing GAAA, not the
first selected mutation Sub(2,C), which would produce AACA. -/
theorem claim_C3_counterexample :
    (polishIteration (fun _ => 0) ['A', 'A', 'A', 'A'] [0]
        [Mutation.Substitution 2 ['C'], Mutation.Substitution 0 ['G']]
        0 false).tpl = ['G', 'A', 'A', 'A'] ∧
      applyOne ['A', 'A', 'A', 'A'] (Mutation.Substitution 2 ['C']) =
        ['A', 'A', 'C', 'A'] ∧
      (['G', 'A', 'A', 'A'] : List Char) ≠ ['A', 'A', 'C', 'A'] := by
  refine ⟨?_, by decide, by decide⟩
  decide

/-- The `round(-10.0 * log10(p))` kernel of ProbabilityToQV, on ℝ. -/
noncomputable def rawQV (p : ℝ) : ℤ := round (-10 * Real.logb 10 p)

/-- `numeric_limits<double>::min()`, the smallest positive normalised
double, 2^-1022 (an exact real value). -/
noncomputable def dblMin : ℝ := (2 : ℝ) ^ (-(1022 : ℤ))

/-- ProbabilityToQV: reject p outside [0,1] with invalid_argument, clamp an
exact zero to DBL_MIN, and return `round(-10 * log10 p)`.  The doubles of
the source are modelled by exact reals; the clamped constant DBL_MIN is the
exact real 2^-1022. -/
noncomputable def ProbabilityToQV (p : ℝ) : Except String ℤ :=
  if p < 0 ∨ 1 < p then Except.error "invalid value: probability not in [0,1]"
  else if p = 0 then Except.ok (rawQV dblMin)
  else Except.ok (rawQV p)

theorem logb_two_zpow (k : ℤ) :
    Real.logb 10 ((2 : ℝ) ^ k) = (k : ℝ) * Real.logb 10 2 := by
  unfold Real.logb
  rw [Real.log_zpow]
  ring

theorem logb_ten_two_lb : (0.3 : ℝ) ≤ Real.logb 10 2 := by
  rw [Real.le_logb_iff_rpow_le (by norm_num) (by norm_num)]
  have h1 : ((10 : ℝ) ^ (0.3 : ℝ)) ^ (10 : ℕ) = 10 ^ (3 : ℕ) := by
    rw [← Real.rpow_natCast ((10 : ℝ) ^ (0.3 : ℝ)) 10,
      ← Real.rpow_mul (by norm_num)]
    norm_num
  have h2 : ((10 : ℝ) ^ (0.3 : ℝ)) ^ (10 : ℕ) ≤ (2 : ℝ) ^ (10 : ℕ) := by
    rw [h1]
    norm_num
  exact (pow_le_pow_iff_left (Real.rpow_nonneg (by norm_num) _) (by norm_num)
    (by norm_num)).mp h2

theorem rawQV_antitone (p q : ℝ) (hp : 0 < p) (hpq : p ≤ q) :
    rawQV q ≤ rawQV p := by
  have hq : 0 < q := lt_of_lt_of_le hp hpq
  have hl : Real.logb 10 p ≤ Real.logb 10 q :=
    (Real.logb_le_logb (by norm_num) hp hq).mpr hpq
  unfold rawQV
  rw [round_eq, round_eq]
  exact Int.floor_le_floor (by linarith)

theorem rawQV_one : rawQV 1 = 0 := by
  unfold rawQV
  rw [Real.logb_one]
  norm_num

/-- C7 (amended): ProbabilityToQV rejects every probability outside [0,1];
`probability_to_qv(1) = 0`; it is monotonically non-increasing on the
positive probabilities (0,1]; and at an exact 0 it returns the finite value
clamped to DBL_MIN rather than infinity.  (Monotonicity does not extend to
the clamp at 0: subnormal inputs below DBL_MIN yield a larger QV than the
clamped value, see the counterexample.) -/
theorem claim_C7_probability_to_qv :
    (∀ p : ℝ, p < 0 ∨ 1 < p →
        ProbabilityToQV p =
          Except.error "invalid value: probability not in [0,1]") ∧
      ProbabilityToQV 1 = Except.ok 0 ∧
      (∀ p : ℝ, 0 < p → p ≤ 1 → ProbabilityToQV p = Except.ok (rawQV p)) ∧
      (∀ p q : ℝ, 0 < p → p ≤ q → q ≤ 1 → rawQV q ≤ rawQV p) ∧
      ProbabilityToQV 0 = Except.ok (rawQV dblMin) := by
  refine ⟨?_, ?_, ?_, ?_, ?_⟩
  · intro p hp
    unfold ProbabilityToQV
    rw [if_pos hp]
  · unfold ProbabilityToQV
    rw [if_neg (by norm_num), if_neg (by norm_num), rawQV_one]
  · intro p hp hp1
    unfold ProbabilityToQV
    rw [if_neg (by intro h; rcases h with h | h <;> linarith),
      if_neg (by linarith)]
  · intro p q hp hpq _
    exact rawQV_antitone p q hp hpq
  · unfold ProbabilityToQV
    rw [if_neg (by norm_num), if_pos rfl]

/-- Witness for C7 (amended) at the rejected input -1 and at p = q = 1. -/
theorem claim_C7_probability_to_qv_witness :
    ProbabilityToQV (-1) =
        Except.error "invalid value: probability not in [0,1]" ∧
      rawQV 1 ≤ rawQV 1 :=
  ⟨claim_C7_probability_to_qv.1 (-1) (Or.inl (neg_lt_zero.mpr one_pos)),
    claim_C7_probability_to_qv.2.2.2.1 1 1 one_pos (le_refl 1) (le_refl 1)⟩

/-- Counterexample for C7 as stated: ProbabilityToQV is not monotonically
non-increasing on all of [0,1].  The subnormal probability 2^-1050 lies in
[0,1] above 0, yet its QV is strictly larger than the QV at 0 (which the
code clamps to DBL_MIN = 2^-1022 > 2^-1050 instead of the smallest positive
double). -/
theorem claim_C7_counterexample :
    (0 : ℝ) ≤ (2 : ℝ) ^ (-(1050 : ℤ)) ∧
      (2 : ℝ) ^ (-(1050 : ℤ)) ≤ 1 ∧
      ProbabilityToQV 0 = Except.ok (rawQV dblMin) ∧
      ProbabilityToQV ((2 : ℝ) ^ (-(1050 : ℤ))) =
        Except.ok (rawQV ((2 : ℝ) ^ (-(1050 : ℤ)))) ∧
      rawQV dblMin < rawQV ((2 : ℝ) ^ (-(1050 : ℤ))) := by
  have hpos : (0 : ℝ) < (2 : ℝ) ^ (-(1050 : ℤ)) := by positivity
  have hle1 : (2 : ℝ) ^ (-(1050 : ℤ)) ≤ 1 := by
    rw [zpow_neg, inv_le_one_iff₀]
    right
    have h : (1 : ℝ) ≤ 2 ^ (1050 : ℤ) := one_le_zpow₀ (by norm_num) (by norm_num)
    linarith
  refine ⟨le_of_lt hpos, hle1, ?_, ?_, ?_⟩
  · unfold ProbabilityToQV
    rw [if_neg (by norm_num), if_pos rfl]
  · unfold ProbabilityToQV
    rw [if_neg (by intro h; rcases h with h | h <;> linarith),
      if_neg (by linarith)]
  · have l2 := logb_ten_two_lb
    unfold rawQV dblMin
    rw [logb_two_zpow, logb_two_zpow]
    have e1 : (-10 : ℝ) * (((-1022 : ℤ) : ℝ) * Real.logb 10 2) =
        10220 * Real.logb 10 2 := by
      push_cast
      ring
    have e2 : (-10 : ℝ) * (((-1050 : ℤ) : ℝ) * Real.logb 10 2) =
        10500 * Real.logb 10 2 := by
      push_cast
      ring
    rw [e1, e2]
    have h1 : (round ((10220 : ℝ) * Real.logb 10 2) : ℝ) ≤
        10220 * Real.logb 10 2 + 1 / 2 := by
      rw [round_eq]
      push_cast
      exact Int.floor_le _
    have h2 : (10500 : ℝ) * Real.logb 10 2 - 1 / 2 <
        (round ((10500 : ℝ) * Real.logb 10 2) : ℝ) := sub_half_lt_round _
    have h3 : (round ((10220 : ℝ) * Real.logb 10 2) : ℝ) <
        (round ((10500 : ℝ) * Real.logb 10 2) : ℝ) := by linarith
    exact_mod_cast h3

/-- C10: applying any mutation list to the empty template returns the empty
string unchanged (the early return on an empty template precedes any edit),
even when the list contains insertions at position 0. -/
theorem claim_C10_empty_template (muts : List Mutation) :
    ApplyMutations [] muts = [] := by
  simp [ApplyMutations]

end Unanimity
